import Mathlib

/-!
Verification development for the Interpreter-pattern expression evaluator
(`src/behavioural/interpreter.cpp`): a left-to-right arithmetic parser over
whitespace-separated integers and the characters '+' / '-', together with a
recursive evaluation tree.

The embedding mirrors the C++ source:
  * `Expression` with `interpret` embeds the class hierarchy
    `NumberExpression` / `AddExpression` / `SubtractExpression` and their
    `interpret()` members.
  * `readInt` embeds `istringstream >> int` under C++11 semantics: leading
    whitespace is skipped, an optional sign and a run of decimal digits are
    consumed, and on failure the stored value is 0 and the fail state is set.
    (Numeric overflow of `int` is outside the scale of this example and is
    not modelled; values are unbounded integers.)
  * `readChar` embeds `istringstream >> char`: skip whitespace, then take one
    character, failing only at end of input.
  * `scanAux` embeds the `while (iss >> op)` loop.  The C++ loop pushes one
    operator and one term per iteration, so `ops[i]` is paired with
    `terms[i+1]`; the embedding keeps the pairs together.  When the inner
    `iss >> num` fails the loop still pushes `NumberExpression(0)` (the C++11
    failed-extraction value) and then stops, because the fail state makes the
    next `iss >> op` fail.  The `fuel` argument is only a termination device:
    every iteration consumes at least one character, so `length + 1` fuel is
    never exhausted (`scanAux_fuel_congr` below shows the fuel is immaterial).
  * `parse` embeds `parse`: read the first integer, scan the remaining
    (operator, integer) pairs, then fold them left-to-right with `buildStep`
    exactly as the tree-building loop does.
-/

/-- The characters accepted by `isspace` in the "C" locale, which is what
`istringstream` skips between tokens. -/
def isCppSpace (c : Char) : Bool :=
  c = ' ' || c = '\t' || c = '\n' || c = '\x0b' || c = '\x0c' || c = '\r'

/-- Numeric value of a decimal digit character. -/
def digitVal (c : Char) : Nat := c.toNat - 48

/-- Skip leading whitespace, as the extraction operators do. -/
def skipWs : List Char → List Char
  | [] => []
  | c :: cs => if isCppSpace c then skipWs cs else c :: cs

/-- Consume a run of decimal digits, accumulating their value left to right;
stop at the first non-digit. -/
def readDigits : List Char → Nat → Nat × List Char
  | [], acc => (acc, [])
  | c :: cs, acc => if c.isDigit then readDigits cs (10 * acc + digitVal c) else (acc, c :: cs)

/-- Result of one `>> int` extraction: the stored value, the remaining
characters, and whether extraction succeeded (the stream's good/fail state). -/
structure ReadIntResult where
  value : Int
  rest : List Char
  ok : Bool
deriving DecidableEq

/-- Split an optional leading sign from the character list. -/
def splitSign : List Char → Bool × List Char
  | [] => (false, [])
  | c :: t => if c = '-' then (true, t) else if c = '+' then (false, t) else (false, c :: t)

/-- `>> int` after whitespace has been skipped: optional sign, then at least
one decimal digit; on failure the stored value is 0 (C++11) and `ok` is
false. -/
def readIntCore (cs : List Char) : ReadIntResult :=
  match splitSign cs with
  | (neg, c :: t) =>
    if c.isDigit then
      let p := readDigits t (digitVal c)
      ⟨if neg then -(p.1 : Int) else (p.1 : Int), p.2, true⟩
    else ⟨0, cs, false⟩
  | (_, []) => ⟨0, cs, false⟩

/-- `istringstream >> int` (C++11 semantics, see module comment). -/
def readInt (cs : List Char) : ReadIntResult := readIntCore (skipWs cs)

/-- `istringstream >> char`: skip whitespace, take one character, fail at end
of input. -/
def readChar (cs : List Char) : Option (Char × List Char) :=
  match skipWs cs with
  | [] => none
  | c :: t => some (c, t)

/-- The expression-tree data model: `NumberExpression`, `AddExpression`,
`SubtractExpression`.  The `add` and `sub` constructors own exactly two
children; in this embedding (as with `unique_ptr` members initialised in the
constructors) both children always exist, so non-nullness is intrinsic. -/
inductive Expression where
  | number (n : Int)
  | add (left right : Expression)
  | sub (left right : Expression)
deriving DecidableEq

/-- The virtual `interpret()` member: a number returns its stored literal,
`add`/`sub` recursively evaluate their children and combine. -/
def Expression.interpret : Expression → Int
  | .number n => n
  | .add l r => l.interpret + r.interpret
  | .sub l r => l.interpret - r.interpret

/-- One iteration of the tree-building loop of `parse`: wrap the running
accumulator and the next literal in an `add` or `sub` node according to the
operator, and leave the accumulator unchanged for any other operator
character (no `else` branch in the source). -/
def buildStep (result : Expression) (p : Char × Int) : Expression :=
  if p.1 = '+' then .add result (.number p.2)
  else if p.1 = '-' then .sub result (.number p.2)
  else result

/-- The tree-building loop: fold the (operator, literal) pairs left-to-right
over the first term. -/
def buildTree (first : Expression) (pairs : List (Char × Int)) : Expression :=
  pairs.foldl buildStep first

/-- The `while (iss >> op)` scanning loop (see module comment for the fuel). -/
def scanAux : Nat → List Char → List (Char × Int)
  | 0, _ => []
  | fuel + 1, cs =>
    match readChar cs with
    | none => []
    | some (op, rest) =>
      let r := readInt rest
      if r.ok then (op, r.value) :: scanAux fuel r.rest else [(op, 0)]

/-- Scan all (operator, literal) pairs from the character stream. -/
def scanTokens (cs : List Char) : List (Char × Int) := scanAux (cs.length + 1) cs

/-- The `parse` function of the source: read the first integer (if that
extraction fails the fail state stops the scanning loop immediately, so no
pairs are read), then build the tree left-to-right.  It always returns a
tree: `terms` is never empty because the first `push_back` is
unconditional. -/
def parse (s : String) : Expression :=
  let r0 := readInt s.data
  let pairs := if r0.ok then scanTokens r0.rest else []
  buildTree (.number r0.value) pairs

/-- Decimal digit characters of a natural number, most significant first. -/
def natToDigitChars (n : Nat) : List Char :=
  if n < 10 then [Char.ofNat (48 + n)]
  else natToDigitChars (n / 10) ++ [Char.ofNat (48 + n % 10)]
termination_by n
decreasing_by exact Nat.div_lt_self (by omega) (by omega)

/-- Decimal rendering of an integer: an optional minus sign then digits. -/
def intToChars (n : Int) : List Char :=
  if n < 0 then '-' :: natToDigitChars n.natAbs else natToDigitChars n.natAbs

/-- One `op N` segment of a well-formed input, together with the whitespace
that precedes the operator and the whitespace between operator and number. -/
structure Seg where
  ws1 : List Char
  op : Char
  ws2 : List Char
  num : Int

/-- Characters of one segment. -/
def renderSeg (s : Seg) : List Char := s.ws1 ++ s.op :: (s.ws2 ++ intToChars s.num)

/-- Characters of a list of segments. -/
def renderSegs : List Seg → List Char
  | [] => []
  | s :: ss => renderSeg s ++ renderSegs ss

/-- Every character of the list is whitespace. -/
abbrev allSpace (ws : List Char) : Prop := ∀ c ∈ ws, isCppSpace c = true

/-- The list is empty or does not start with a decimal digit, so that a
number rendered in front of it does not merge with it. -/
def headNotDigit : List Char → Prop
  | [] => True
  | c :: _ => c.isDigit = false

/-- Conditions under which a segment scans as one (operator, number) token
pair: the filler is whitespace and the operator is a single character that is
neither whitespace nor a digit.  An input whose operators are '+' or '-'
satisfies this. -/
abbrev segOk (s : Seg) : Prop :=
  allSpace s.ws1 ∧ isCppSpace s.op = false ∧ s.op.isDigit = false ∧ allSpace s.ws2

/-- The (operator, number) token pairs a list of segments denotes. -/
def segTokens (segs : List Seg) : List (Char × Int) := segs.map fun s => (s.op, s.num)

/-- Characters of a well-formed input `N0 op1 N1 ... opk Nk`, allowing
arbitrary whitespace runs at either end and inside each segment. -/
def wfChars (ws0 : List Char) (n0 : Int) (segs : List Seg) (wsEnd : List Char) : List Char :=
  ws0 ++ (intToChars n0 ++ (renderSegs segs ++ wsEnd))

/-- A well-formed input `N0 op1 N1 ... opk Nk` as a string. -/
def wfInput (ws0 : List Char) (n0 : Int) (segs : List Seg) (wsEnd : List Char) : String :=
  ⟨wfChars ws0 n0 segs wsEnd⟩

/-- Spec-side meaning of one operator application in the left-to-right fold. -/
def applyOp (op : Char) (a b : Int) : Int := if op = '+' then a + b else a - b

/-- Spec-side left-to-right fold `((N0 op1 N1) op2 N2) ... opk Nk`. -/
def foldLTR (n0 : Int) (pairs : List (Char × Int)) : Int :=
  pairs.foldl (fun acc p => applyOp p.1 acc p.2) n0

/-- Number of `number` leaves of a tree. -/
def leafCount : Expression → Nat
  | .number _ => 1
  | .add l r => leafCount l + leafCount r
  | .sub l r => leafCount l + leafCount r

/-- Number of internal (`add`/`sub`) nodes of a tree. -/
def internalCount : Expression → Nat
  | .number _ => 0
  | .add l r => internalCount l + internalCount r + 1
  | .sub l r => internalCount l + internalCount r + 1

/-- `IsAccumTree n0 pairs t` states that `t` is the strictly left-associative
tree over `n0` and `pairs` in which each internal node carries the operator
and number of one pair, its right child is that pair's number leaf, and its
left subtree is exactly the accumulator built from all prior pairs. -/
inductive IsAccumTree (n0 : Int) : List (Char × Int) → Expression → Prop
  | nil : IsAccumTree n0 [] (.number n0)
  | plus (ps : List (Char × Int)) (t : Expression) (m : Int) :
      IsAccumTree n0 ps t → IsAccumTree n0 (ps ++ [('+', m)]) (.add t (.number m))
  | minus (ps : List (Char × Int)) (t : Expression) (m : Int) :
      IsAccumTree n0 ps t → IsAccumTree n0 (ps ++ [('-', m)]) (.sub t (.number m))

/-- Nesting depth of a tree (a leaf has depth 1). -/
def Expression.depth : Expression → Nat
  | .number _ => 1
  | .add l r => 1 + max l.depth r.depth
  | .sub l r => 1 + max l.depth r.depth

/-- Evaluation instrumented with a bound on the recursion depth: `none` means
the call stack would exceed `fuel` nested activations of `interpret`. -/
def interpretFuel : Nat → Expression → Option Int
  | 0, _ => none
  | _ + 1, .number n => some n
  | fuel + 1, .add l r =>
    match interpretFuel fuel l, interpretFuel fuel r with
    | some a, some b => some (a + b)
    | _, _ => none
  | fuel + 1, .sub l r =>
    match interpretFuel fuel l, interpretFuel fuel r with
    | some a, some b => some (a - b)
    | _, _ => none

/-- The list of results of `k` successive calls of `interpret()` on the same
tree. -/
def evalRepeated (e : Expression) : Nat → List Int
  | 0 => []
  | k + 1 => e.interpret :: evalRepeated e k

/-! ### Basic lemmas about the character-stream primitives -/

theorem skipWs_length (cs : List Char) : (skipWs cs).length ≤ cs.length := by
  induction cs with
  | nil => simp [skipWs]
  | cons c cs ih =>
    cases h : isCppSpace c with
    | true => simp only [skipWs, h, if_pos]; exact Nat.le_succ_of_le ih
    | false => simp [skipWs, h]

theorem skipWs_cons_not_space {c : Char} (h : isCppSpace c = false) (cs : List Char) :
    skipWs (c :: cs) = c :: cs := by
  simp [skipWs, h]

theorem skipWs_append_of_allSpace {ws : List Char} (h : allSpace ws) (cs : List Char) :
    skipWs (ws ++ cs) = skipWs cs := by
  induction ws with
  | nil => rfl
  | cons w ws ih =>
    have hw : isCppSpace w = true := h w (List.mem_cons_self w ws)
    simp only [List.cons_append, skipWs, hw, if_pos]
    exact ih fun c hc => h c (List.mem_cons_of_mem w hc)

theorem skipWs_of_allSpace {ws : List Char} (h : allSpace ws) : skipWs ws = [] := by
  have := skipWs_append_of_allSpace h []
  simpa using this

theorem readDigits_length (cs : List Char) : ∀ acc : Nat, (readDigits cs acc).2.length ≤ cs.length := by
  induction cs with
  | nil => intro acc; simp [readDigits]
  | cons c cs ih =>
    intro acc
    cases h : c.isDigit with
    | true =>
      simp only [readDigits, h, if_pos]
      exact Nat.le_succ_of_le (ih _)
    | false => simp [readDigits, h]

theorem splitSign_length (cs : List Char) : (splitSign cs).2.length ≤ cs.length := by
  cases cs with
  | nil => simp [splitSign]
  | cons c t =>
    simp only [splitSign]
    split
    · simp
    · split <;> simp

theorem readIntCore_rest_length (cs : List Char) : (readIntCore cs).rest.length ≤ cs.length := by
  unfold readIntCore
  rcases h : splitSign cs with ⟨neg, t⟩
  have ht : t.length ≤ cs.length := by
    have := splitSign_length cs
    rw [h] at this
    exact this
  cases t with
  | nil => simp
  | cons c t' =>
    cases hd : c.isDigit with
    | true =>
      simp only [hd, if_pos]
      have := readDigits_length t' (digitVal c)
      simp only [List.length_cons] at ht
      omega
    | false => simp [hd]

theorem readInt_rest_length (cs : List Char) : (readInt cs).rest.length ≤ cs.length := by
  unfold readInt
  exact le_trans (readIntCore_rest_length (skipWs cs)) (skipWs_length cs)

theorem readChar_some_length {cs : List Char} {op : Char} {rest : List Char}
    (h : readChar cs = some (op, rest)) : rest.length < cs.length := by
  unfold readChar at h
  cases hs : skipWs cs with
  | nil => rw [hs] at h; cases h
  | cons c t =>
    rw [hs] at h
    have hlen : (c :: t).length ≤ cs.length := by rw [← hs]; exact skipWs_length cs
    cases h
    simp only [List.length_cons] at hlen
    omega

theorem scanAux_fuel_congr : ∀ (f₁ : Nat), ∀ (f₂ : Nat) (cs : List Char),
    cs.length < f₁ → cs.length < f₂ → scanAux f₁ cs = scanAux f₂ cs := by
  intro f₁
  induction f₁ with
  | zero => intro f₂ cs h₁ _; omega
  | succ f ih =>
    intro f₂ cs h₁ h₂
    cases f₂ with
    | zero => omega
    | succ g =>
      simp only [scanAux]
      cases hrc : readChar cs with
      | none => rfl
      | some p =>
        rcases p with ⟨op, rest⟩
        simp only
        have hrest : rest.length < cs.length := readChar_some_length hrc
        have hr : (readInt rest).rest.length ≤ rest.length := readInt_rest_length rest
        by_cases hok : (readInt rest).ok = true
        · simp only [hok, if_pos]
          rw [ih g (readInt rest).rest (by omega) (by omega)]
        · simp only [Bool.not_eq_true] at hok
          simp [hok]

/-! ### Digit and rendering lemmas -/

theorem space_not_digit {c : Char} (h : isCppSpace c = true) : c.isDigit = false := by
  simp only [isCppSpace, Bool.or_eq_true, decide_eq_true_eq] at h
  rcases h with ((((h | h) | h) | h) | h) | h <;> subst h <;> decide

theorem digit_not_space {c : Char} (h : c.isDigit = true) : isCppSpace c = false := by
  cases hs : isCppSpace c with
  | false => rfl
  | true => rw [space_not_digit hs] at h; cases h

theorem digitVal_ofNat {d : Nat} (h : d < 10) : digitVal (Char.ofNat (48 + d)) = d := by
  interval_cases d <;> decide

theorem isDigit_ofNat {d : Nat} (h : d < 10) : (Char.ofNat (48 + d)).isDigit = true := by
  interval_cases d <;> decide

theorem natToDigitChars_lt {n : Nat} (h : n < 10) :
    natToDigitChars n = [Char.ofNat (48 + n)] := by
  rw [natToDigitChars]
  simp [h]

theorem natToDigitChars_ge {n : Nat} (h : ¬ n < 10) :
    natToDigitChars n = natToDigitChars (n / 10) ++ [Char.ofNat (48 + n % 10)] := by
  rw [natToDigitChars]
  simp [h]

theorem natToDigitChars_ne_nil (n : Nat) : natToDigitChars n ≠ [] := by
  by_cases h : n < 10
  · rw [natToDigitChars_lt h]; simp
  · rw [natToDigitChars_ge h]; simp

theorem natToDigitChars_digits (n : Nat) : ∀ c ∈ natToDigitChars n, c.isDigit = true := by
  induction n using Nat.strong_induction_on with
  | _ n ih =>
    by_cases h : n < 10
    · rw [natToDigitChars_lt h]
      intro c hc
      simp only [List.mem_singleton] at hc
      subst hc
      exact isDigit_ofNat h
    · rw [natToDigitChars_ge h]
      intro c hc
      rcases List.mem_append.mp hc with hc | hc
      · exact ih (n / 10) (Nat.div_lt_self (by omega) (by omega)) c hc
      · simp only [List.mem_singleton] at hc
        subst hc
        exact isDigit_ofNat (Nat.mod_lt n (by omega))

theorem natToDigitChars_foldl (n : Nat) :
    ∀ acc : Nat, (natToDigitChars n).foldl (fun a c => 10 * a + digitVal c) acc =
      acc * 10 ^ (natToDigitChars n).length + n := by
  induction n using Nat.strong_induction_on with
  | _ n ih =>
    intro acc
    by_cases h : n < 10
    · rw [natToDigitChars_lt h]
      simp only [List.foldl_cons, List.foldl_nil, List.length_singleton]
      rw [digitVal_ofNat h]
      ring
    · rw [natToDigitChars_ge h]
      rw [List.foldl_append]
      rw [ih (n / 10) (Nat.div_lt_self (by omega) (by omega)) acc]
      simp only [List.foldl_cons, List.foldl_nil, List.length_append, List.length_singleton]
      rw [digitVal_ofNat (Nat.mod_lt n (by omega))]
      rw [pow_succ]
      have hn : 10 * (n / 10) + n % 10 = n := Nat.div_add_mod n 10
      ring_nf
      omega

theorem readDigits_digits_append (ds : List Char) :
    ∀ (cs : List Char) (acc : Nat), (∀ c ∈ ds, c.isDigit = true) →
      readDigits (ds ++ cs) acc = readDigits cs (ds.foldl (fun a c => 10 * a + digitVal c) acc) := by
  induction ds with
  | nil => intro cs acc _; rfl
  | cons d ds ih =>
    intro cs acc h
    have hd : d.isDigit = true := h d (List.mem_cons_self d ds)
    simp only [List.cons_append, readDigits, hd, if_pos, List.foldl_cons]
    exact ih cs _ fun c hc => h c (List.mem_cons_of_mem d hc)

theorem readDigits_stop {cs : List Char} (h : headNotDigit cs) (acc : Nat) :
    readDigits cs acc = (acc, cs) := by
  cases cs with
  | nil => rfl
  | cons c t =>
    simp only [headNotDigit] at h
    simp [readDigits, h]

theorem natToDigitChars_readDigits (m : Nat) {cs : List Char} (h : headNotDigit cs) :
    ∃ d ds, natToDigitChars m = d :: ds ∧ d.isDigit = true ∧
      readDigits (ds ++ cs) (digitVal d) = (m, cs) := by
  cases hD : natToDigitChars m with
  | nil => exact absurd hD (natToDigitChars_ne_nil m)
  | cons d ds =>
    refine ⟨d, ds, rfl, ?_, ?_⟩
    · exact natToDigitChars_digits m d (hD ▸ List.mem_cons_self d ds)
    · have hds : ∀ c ∈ ds, c.isDigit = true := by
        intro c hc
        exact natToDigitChars_digits m c (hD ▸ List.mem_cons_of_mem d hc)
      rw [readDigits_digits_append ds cs (digitVal d) hds, readDigits_stop h]
      have hfold := natToDigitChars_foldl m 0
      rw [hD] at hfold
      simp only [List.foldl_cons, Nat.mul_zero, Nat.zero_add, Nat.zero_mul] at hfold
      rw [hfold]

theorem readIntCore_render (n : Int) {cs : List Char} (h : headNotDigit cs) :
    readIntCore (intToChars n ++ cs) = ⟨n, cs, true⟩ := by
  obtain ⟨d, ds, hD, hdig, hread⟩ := natToDigitChars_readDigits n.natAbs h
  by_cases hn : n < 0
  · have hform : intToChars n ++ cs = '-' :: (d :: (ds ++ cs)) := by
      simp [intToChars, hn, hD]
    rw [hform]
    simp only [readIntCore, splitSign, if_pos, reduceIte]
    simp only [hdig, if_pos, hread]
    congr 1
    omega
  · have hform : intToChars n ++ cs = d :: (ds ++ cs) := by
      simp [intToChars, hn, hD]
    rw [hform]
    have hne1 : d ≠ '-' := by
      intro e; rw [e] at hdig; exact absurd hdig (by decide)
    have hne2 : d ≠ '+' := by
      intro e; rw [e] at hdig; exact absurd hdig (by decide)
    simp only [readIntCore, splitSign, hne1, hne2, if_neg, if_false, reduceIte]
    simp only [hdig, if_pos, hread]
    congr 1
    rw [if_neg (by decide)]
    omega

theorem intToChars_skipWs (n : Int) (cs : List Char) :
    skipWs (intToChars n ++ cs) = intToChars n ++ cs := by
  obtain ⟨d, ds, hD, hdig, _⟩ := @natToDigitChars_readDigits n.natAbs [] trivial
  by_cases hn : n < 0
  · have hform : intToChars n ++ cs = '-' :: (d :: (ds ++ cs)) := by
      simp [intToChars, hn, hD]
    rw [hform]
    exact skipWs_cons_not_space (by decide) _
  · have hform : intToChars n ++ cs = d :: (ds ++ cs) := by
      simp [intToChars, hn, hD]
    rw [hform]
    exact skipWs_cons_not_space (digit_not_space hdig) _

theorem readInt_render (n : Int) {cs : List Char} (h : headNotDigit cs) :
    readInt (intToChars n ++ cs) = ⟨n, cs, true⟩ := by
  unfold readInt
  rw [intToChars_skipWs, readIntCore_render n h]

theorem readInt_ws {ws : List Char} (h : allSpace ws) (cs : List Char) :
    readInt (ws ++ cs) = readInt cs := by
  unfold readInt
  rw [skipWs_append_of_allSpace h]

theorem headNotDigit_of_allSpace {ws : List Char} (h : allSpace ws) : headNotDigit ws := by
  cases ws with
  | nil => trivial
  | cons c t =>
    simp only [headNotDigit]
    exact space_not_digit (h c (List.mem_cons_self c t))

theorem headNotDigit_ws_op {wsA : List Char} (hA : allSpace wsA) {op : Char}
    (hop : op.isDigit = false) (wsB : List Char) : headNotDigit (wsA ++ op :: wsB) := by
  cases wsA with
  | nil => simpa [headNotDigit] using hop
  | cons c t =>
    simp only [List.cons_append, headNotDigit]
    exact space_not_digit (hA c (List.mem_cons_self c t))

theorem headNotDigit_append_left {xs ys : List Char} (hx : xs ≠ []) (h : headNotDigit xs) :
    headNotDigit (xs ++ ys) := by
  cases xs with
  | nil => exact absurd rfl hx
  | cons c t => simpa [headNotDigit] using h

theorem headNotDigit_renderSegs {segs : List Seg} (hs : ∀ s ∈ segs, segOk s)
    {tail : List Char} (ht : headNotDigit tail) : headNotDigit (renderSegs segs ++ tail) := by
  cases segs with
  | nil => simpa [renderSegs] using ht
  | cons s ss =>
    obtain ⟨h1, _, h3, _⟩ := hs s (List.mem_cons_self s ss)
    have hform : renderSegs (s :: ss) ++ tail = renderSeg s ++ (renderSegs ss ++ tail) := by
      simp [renderSegs]
    rw [hform]
    refine headNotDigit_append_left ?_ ?_
    · simp [renderSeg]
    · exact headNotDigit_ws_op h1 h3 _

/-! ### Behaviour of the scanning loop on well-formed input -/

theorem readChar_seg {ws1 : List Char} (h1 : allSpace ws1) {op : Char}
    (h2 : isCppSpace op = false) (rest : List Char) :
    readChar (ws1 ++ op :: rest) = some (op, rest) := by
  unfold readChar
  rw [skipWs_append_of_allSpace h1, skipWs_cons_not_space h2]

theorem scanAux_of_allSpace {ws : List Char} (h : allSpace ws) (fuel : Nat) :
    scanAux fuel ws = [] := by
  cases fuel with
  | zero => rfl
  | succ f =>
    simp only [scanAux, readChar, skipWs_of_allSpace h]

theorem scanAux_trailing_op {wsA wsB : List Char} (hA : allSpace wsA) (hB : allSpace wsB)
    {op : Char} (hop : isCppSpace op = false) {fuel : Nat} (hf : 0 < fuel) :
    scanAux fuel (wsA ++ op :: wsB) = [(op, 0)] := by
  cases fuel with
  | zero => omega
  | succ f =>
    simp only [scanAux]
    rw [readChar_seg hA hop]
    have hri : readInt wsB = ⟨0, [], false⟩ := by
      unfold readInt
      rw [skipWs_of_allSpace hB]
      rfl
    simp [hri]

theorem scanAux_step {f : Nat} {cs : List Char} {op : Char} {rest : List Char}
    {v : Int} {rest' : List Char} (hrc : readChar cs = some (op, rest))
    (hri : readInt rest = ⟨v, rest', true⟩) :
    scanAux (f + 1) cs = (op, v) :: scanAux f rest' := by
  simp only [scanAux]
  rw [hrc]
  simp [hri]

theorem scanAux_renderSegs {tail : List Char} (ht : headNotDigit tail) :
    ∀ (segs : List Seg) (fuel : Nat), (∀ s ∈ segs, segOk s) →
      (renderSegs segs ++ tail).length < fuel →
      scanAux fuel (renderSegs segs ++ tail) = segTokens segs ++ scanAux (tail.length + 1) tail := by
  intro segs
  induction segs with
  | nil =>
    intro fuel _ hlen
    simp only [renderSegs, List.nil_append, segTokens, List.map_nil]
    exact scanAux_fuel_congr fuel (tail.length + 1) tail (by simpa [renderSegs] using hlen) (by omega)
  | cons s ss ih =>
    intro fuel hok hlen
    obtain ⟨h1, h2, h3, h4⟩ := hok s (List.mem_cons_self s ss)
    have hss : ∀ x ∈ ss, segOk x := fun x hx => hok x (List.mem_cons_of_mem s hx)
    have hform : renderSegs (s :: ss) ++ tail =
        s.ws1 ++ s.op :: (s.ws2 ++ (intToChars s.num ++ (renderSegs ss ++ tail))) := by
      simp [renderSegs, renderSeg]
    cases fuel with
    | zero => omega
    | succ f =>
      rw [hform]
      have hhead : headNotDigit (renderSegs ss ++ tail) := headNotDigit_renderSegs hss ht
      have hri : readInt (s.ws2 ++ (intToChars s.num ++ (renderSegs ss ++ tail))) =
          ⟨s.num, renderSegs ss ++ tail, true⟩ := by
        rw [readInt_ws h4, readInt_render s.num hhead]
      rw [scanAux_step (readChar_seg h1 h2 _) hri]
      have hlen2 : (renderSegs ss ++ tail).length < f := by
        rw [hform] at hlen
        simp only [List.length_append, List.length_cons] at hlen ⊢
        omega
      rw [scanAux_fuel_congr f ((renderSegs ss ++ tail).length + 1) _ hlen2 (by omega)]
      rw [ih ((renderSegs ss ++ tail).length + 1) hss (by omega)]
      simp [segTokens]

theorem parse_wfInput {ws0 : List Char} (h0 : allSpace ws0) (n0 : Int) {segs : List Seg}
    (hs : ∀ s ∈ segs, segOk s) {wsEnd : List Char} (hE : allSpace wsEnd) :
    parse (wfInput ws0 n0 segs wsEnd) = buildTree (.number n0) (segTokens segs) := by
  have hdata : (wfInput ws0 n0 segs wsEnd).data =
      ws0 ++ (intToChars n0 ++ (renderSegs segs ++ wsEnd)) := rfl
  have hEnd : headNotDigit wsEnd := headNotDigit_of_allSpace hE
  have hri : readInt (ws0 ++ (intToChars n0 ++ (renderSegs segs ++ wsEnd))) =
      ⟨n0, renderSegs segs ++ wsEnd, true⟩ := by
    rw [readInt_ws h0, readInt_render n0 (headNotDigit_renderSegs hs hEnd)]
  unfold parse
  rw [hdata, hri]
  have hscan : scanTokens (renderSegs segs ++ wsEnd) = segTokens segs := by
    unfold scanTokens
    rw [scanAux_renderSegs hEnd segs _ hs (by omega)]
    rw [scanAux_of_allSpace hE]
    simp
  simp only [hscan, if_pos]

/-! ### Lemmas about the tree-building fold and evaluation -/

theorem segOk_of_plusMinus {s : Seg} (h1 : allSpace s.ws1) (h2 : allSpace s.ws2)
    (h3 : s.op = '+' ∨ s.op = '-') : segOk s := by
  rcases h3 with h3 | h3 <;> rw [segOk, h3] <;> exact ⟨h1, by decide, by decide, h2⟩

theorem interpret_buildStep (first : Expression) (p : Char × Int)
    (h : p.1 = '+' ∨ p.1 = '-') :
    (buildStep first p).interpret = applyOp p.1 first.interpret p.2 := by
  rcases h with h | h <;>
    simp [buildStep, applyOp, h, Expression.interpret]

theorem interpret_buildTree (pairs : List (Char × Int)) :
    ∀ first : Expression, (∀ p ∈ pairs, p.1 = '+' ∨ p.1 = '-') →
      (buildTree first pairs).interpret = foldLTR first.interpret pairs := by
  induction pairs with
  | nil => intro first _; rfl
  | cons p ps ih =>
    intro first h
    have hp := h p (List.mem_cons_self p ps)
    have hps : ∀ q ∈ ps, q.1 = '+' ∨ q.1 = '-' := fun q hq => h q (List.mem_cons_of_mem p hq)
    show (buildTree (buildStep first p) ps).interpret = (ps.foldl (fun acc q => applyOp q.1 acc q.2) (applyOp p.1 first.interpret p.2))
    rw [ih (buildStep first p) hps, interpret_buildStep first p hp]
    rfl

theorem leafCount_buildStep (first : Expression) (p : Char × Int)
    (h : p.1 = '+' ∨ p.1 = '-') : leafCount (buildStep first p) = leafCount first + 1 := by
  rcases h with h | h <;> simp [buildStep, h, leafCount]

theorem internalCount_buildStep (first : Expression) (p : Char × Int)
    (h : p.1 = '+' ∨ p.1 = '-') : internalCount (buildStep first p) = internalCount first + 1 := by
  rcases h with h | h <;> simp [buildStep, h, internalCount]

theorem leafCount_buildTree (pairs : List (Char × Int)) :
    ∀ first : Expression, (∀ p ∈ pairs, p.1 = '+' ∨ p.1 = '-') →
      leafCount (buildTree first pairs) = leafCount first + pairs.length := by
  induction pairs with
  | nil => intro first _; rfl
  | cons p ps ih =>
    intro first h
    have hp := h p (List.mem_cons_self p ps)
    have hps : ∀ q ∈ ps, q.1 = '+' ∨ q.1 = '-' := fun q hq => h q (List.mem_cons_of_mem p hq)
    show leafCount (buildTree (buildStep first p) ps) = leafCount first + (p :: ps).length
    rw [ih (buildStep first p) hps, leafCount_buildStep first p hp]
    simp only [List.length_cons]
    omega

theorem internalCount_buildTree (pairs : List (Char × Int)) :
    ∀ first : Expression, (∀ p ∈ pairs, p.1 = '+' ∨ p.1 = '-') →
      internalCount (buildTree first pairs) = internalCount first + pairs.length := by
  induction pairs with
  | nil => intro first _; rfl
  | cons p ps ih =>
    intro first h
    have hp := h p (List.mem_cons_self p ps)
    have hps : ∀ q ∈ ps, q.1 = '+' ∨ q.1 = '-' := fun q hq => h q (List.mem_cons_of_mem p hq)
    show internalCount (buildTree (buildStep first p) ps) = internalCount first + (p :: ps).length
    rw [ih (buildStep first p) hps, internalCount_buildStep first p hp]
    simp only [List.length_cons]
    omega

theorem isAccumTree_buildTree (n0 : Int) (pairs : List (Char × Int))
    (h : ∀ p ∈ pairs, p.1 = '+' ∨ p.1 = '-') :
    IsAccumTree n0 pairs (buildTree (.number n0) pairs) := by
  induction pairs using List.reverseRecOn with
  | nil => exact IsAccumTree.nil
  | append_singleton ps p ih =>
    have hp : p.1 = '+' ∨ p.1 = '-' := h p (by simp)
    have hps : ∀ q ∈ ps, q.1 = '+' ∨ q.1 = '-' := fun q hq => h q (by simp [hq])
    have hstep : buildTree (.number n0) (ps ++ [p]) = buildStep (buildTree (.number n0) ps) p := by
      unfold buildTree
      rw [List.foldl_append]
      rfl
    rw [hstep]
    rcases p with ⟨c, m⟩
    rcases hp with hp | hp <;> subst hp
    · exact IsAccumTree.plus ps _ m (ih hps)
    · exact IsAccumTree.minus ps _ m (ih hps)

/-- C8: for every finite expression tree that was built, evaluation always
terminates and never fails: whenever the recursion-depth budget `fuel` is at
least the depth of the tree — so in particular for the actual recursion,
which is bounded by the depth of the tree — the instrumented evaluator
returns `some` of the value `interpret` computes, for every tree.  Totality
of `interpret` itself is intrinsic: it is a function defined by structural
recursion on the tree. -/
theorem interpretFuel_of_depth_le (e : Expression) :
    ∀ fuel : Nat, e.depth ≤ fuel → interpretFuel fuel e = some e.interpret := by
  induction e with
  | number n =>
    intro fuel h
    cases fuel with
    | zero => simp [Expression.depth] at h
    | succ f => rfl
  | add l r ihl ihr =>
    intro fuel h
    cases fuel with
    | zero => simp [Expression.depth] at h
    | succ f =>
      simp only [Expression.depth] at h
      have hl : l.depth ≤ f := by omega
      have hr : r.depth ≤ f := by omega
      simp [interpretFuel, ihl f hl, ihr f hr, Expression.interpret]
  | sub l r ihl ihr =>
    intro fuel h
    cases fuel with
    | zero => simp [Expression.depth] at h
    | succ f =>
      simp only [Expression.depth] at h
      have hl : l.depth ≤ f := by omega
      have hr : r.depth ≤ f := by omega
      simp [interpretFuel, ihl f hl, ihr f hr, Expression.interpret]

/-- C8 witness: the tree for "5 + 3" has depth 2, and with that budget the
instrumented evaluator returns its `interpret` value. -/
theorem interpretFuel_of_depth_le_witness :
    (Expression.add (.number 5) (.number 3)).depth ≤ 2 ∧
    interpretFuel 2 (Expression.add (.number 5) (.number 3)) =
      some ((Expression.add (.number 5) (.number 3)).interpret) :=
  ⟨by decide, interpretFuel_of_depth_le _ 2 (by decide)⟩

/-- When `istringstream >> int` fails, the stored value is 0 (C++11),
whatever the input was. -/
theorem readInt_fail_value : ∀ cs : List Char, (readInt cs).ok = false →
    (readInt cs).value = 0 := by
  intro cs h
  unfold readInt readIntCore at h ⊢
  rcases hsp : splitSign (skipWs cs) with ⟨neg, t⟩
  rw [hsp] at h
  cases t with
  | nil => rfl
  | cons c t' =>
    cases hd : c.isDigit with
    | true => simp [hd] at h
    | false => simp [hd]

/-- C1: for every well-formed input string `N0 op1 N1 ... opk Nk` — rendered
by `wfInput` from a first integer, segments each holding whitespace, a '+' or
'-' operator, whitespace and an integer, and optional whitespace at either
end — evaluating the tree returned by `parse` equals the left-to-right fold
`((N0 op1 N1) op2 N2) ... opk Nk` computed by `foldLTR`. -/
theorem parse_eval_eq_left_fold (ws0 : List Char) (n0 : Int) (segs : List Seg)
    (wsEnd : List Char) (h0 : allSpace ws0) (hE : allSpace wsEnd)
    (hs : ∀ s ∈ segs, allSpace s.ws1 ∧ allSpace s.ws2 ∧ (s.op = '+' ∨ s.op = '-')) :
    (parse (wfInput ws0 n0 segs wsEnd)).interpret = foldLTR n0 (segTokens segs) := by
  have hok : ∀ s ∈ segs, segOk s := fun s hmem =>
    segOk_of_plusMinus (hs s hmem).1 (hs s hmem).2.1 (hs s hmem).2.2
  have hops : ∀ p ∈ segTokens segs, p.1 = '+' ∨ p.1 = '-' := by
    intro p hp
    simp only [segTokens, List.mem_map] at hp
    obtain ⟨s, hmem, rfl⟩ := hp
    exact (hs s hmem).2.2
  rw [parse_wfInput h0 n0 hok hE, interpret_buildTree (segTokens segs) (.number n0) hops]
  rfl

/-- C1 witness: the input "5 + 3 - 2" (first term 5, segments "+ 3" and
"- 2") evaluates to the left-to-right fold. -/
theorem parse_eval_eq_left_fold_witness :
    allSpace ([] : List Char) ∧
    (∀ s ∈ [Seg.mk [' '] '+' [' '] 3, Seg.mk [' '] '-' [' '] 2],
      allSpace s.ws1 ∧ allSpace s.ws2 ∧ (s.op = '+' ∨ s.op = '-')) ∧
    (parse (wfInput [] 5 [Seg.mk [' '] '+' [' '] 3, Seg.mk [' '] '-' [' '] 2] [])).interpret =
      foldLTR 5 (segTokens [Seg.mk [' '] '+' [' '] 3, Seg.mk [' '] '-' [' '] 2]) :=
  ⟨by decide, by decide,
    parse_eval_eq_left_fold [] 5 [Seg.mk [' '] '+' [' '] 3, Seg.mk [' '] '-' [' '] 2] []
      (by decide) (by decide) (by decide)⟩

/-- C2: parsing is strictly left-associative with no operator precedence:
"10 - 4 + 2" parses as (10 - 4) + 2 — not as 10 - (4 + 2) — and evaluates to
8, while the right-associated tree would evaluate to 4. -/
theorem parse_left_assoc_no_precedence :
    parse "10 - 4 + 2" = .add (.sub (.number 10) (.number 4)) (.number 2) ∧
    (parse "10 - 4 + 2").interpret = 8 ∧
    parse "10 - 4 + 2" ≠ .sub (.number 10) (.add (.number 4) (.number 2)) ∧
    (Expression.sub (.number 10) (.add (.number 4) (.number 2))).interpret = 4 := by
  decide

/-- C3: evaluation follows the per-variant contract: a `number` node returns
its stored literal, an `add` node returns the sum of its children's values,
and a `sub` node returns their difference. -/
theorem interpret_per_variant :
    (∀ n : Int, (Expression.number n).interpret = n) ∧
    (∀ l r : Expression, (Expression.add l r).interpret = l.interpret + r.interpret) ∧
    (∀ l r : Expression, (Expression.sub l r).interpret = l.interpret - r.interpret) :=
  ⟨fun _ => rfl, fun _ _ => rfl, fun _ _ => rfl⟩

/-- C4: for every well-formed input with `k` operators the parsed tree has
exactly `k + 1` `number` leaves and `k` internal nodes, and `IsAccumTree`
holds: the tree is the strictly left-associative accumulation in which every
internal node's right child is the leaf of its own term and its left subtree
is the accumulator of all prior terms, in left-to-right scan order.  (That
every internal node has exactly two non-null children is intrinsic to the
`Expression` type: `add` and `sub` always carry two subtrees.) -/
theorem parse_tree_shape (ws0 : List Char) (n0 : Int) (segs : List Seg) (wsEnd : List Char)
    (h0 : allSpace ws0) (hE : allSpace wsEnd)
    (hs : ∀ s ∈ segs, allSpace s.ws1 ∧ allSpace s.ws2 ∧ (s.op = '+' ∨ s.op = '-')) :
    leafCount (parse (wfInput ws0 n0 segs wsEnd)) = segs.length + 1 ∧
    internalCount (parse (wfInput ws0 n0 segs wsEnd)) = segs.length ∧
    IsAccumTree n0 (segTokens segs) (parse (wfInput ws0 n0 segs wsEnd)) := by
  have hok : ∀ s ∈ segs, segOk s := fun s hmem =>
    segOk_of_plusMinus (hs s hmem).1 (hs s hmem).2.1 (hs s hmem).2.2
  have hops : ∀ p ∈ segTokens segs, p.1 = '+' ∨ p.1 = '-' := by
    intro p hp
    simp only [segTokens, List.mem_map] at hp
    obtain ⟨s, hmem, rfl⟩ := hp
    exact (hs s hmem).2.2
  rw [parse_wfInput h0 n0 hok hE]
  refine ⟨?_, ?_, isAccumTree_buildTree n0 _ hops⟩
  · rw [leafCount_buildTree _ _ hops]
    simp only [leafCount, segTokens, List.length_map]
    omega
  · rw [internalCount_buildTree _ _ hops]
    simp only [internalCount, segTokens, List.length_map]
    omega

/-- C4 witness: the input "5 + 3 - 2" has 2 operators, 3 leaves and 2
internal nodes, and its tree is the left-associative accumulation. -/
theorem parse_tree_shape_witness :
    (∀ s ∈ [Seg.mk [' '] '+' [' '] 3, Seg.mk [' '] '-' [' '] 2],
      allSpace s.ws1 ∧ allSpace s.ws2 ∧ (s.op = '+' ∨ s.op = '-')) ∧
    (leafCount (parse (wfInput [] 5 [Seg.mk [' '] '+' [' '] 3, Seg.mk [' '] '-' [' '] 2] [])) =
        2 + 1 ∧
      internalCount (parse (wfInput [] 5 [Seg.mk [' '] '+' [' '] 3, Seg.mk [' '] '-' [' '] 2] [])) =
        2 ∧
      IsAccumTree 5 (segTokens [Seg.mk [' '] '+' [' '] 3, Seg.mk [' '] '-' [' '] 2])
        (parse (wfInput [] 5 [Seg.mk [' '] '+' [' '] 3, Seg.mk [' '] '-' [' '] 2] []))) :=
  ⟨by decide,
    parse_tree_shape [] 5 [Seg.mk [' '] '+' [' '] 3, Seg.mk [' '] '-' [' '] 2] []
      (by decide) (by decide) (by decide)⟩

/-- C5 counterexample: the claim says malformed input raises an error kind,
but `parse` is a total function into `Expression` with no error channel at
all: on the malformed inputs "5 + " (trailing operator) and "" (empty) it
returns ordinary trees whose evaluations are the ordinary integers 5 and 0,
so no error is raised anywhere. -/
theorem parse_malformed_returns_ordinary_tree :
    parse "5 + " = .add (.number 5) (.number 0) ∧ (parse "5 + ").interpret = 5 ∧
    parse "" = .number 0 ∧ (parse "").interpret = 0 := by
  decide

/-- C5 (amended): the parser performs no input validation and raises no
error: for any otherwise well-formed input followed by a trailing operator
with no following number, the failed extraction stores 0 (C++11) and the
loop stops, so `parse` returns the tree of the well-formed prefix extended
with the pair (op, 0). -/
theorem parse_trailing_op_no_error (n0 : Int) (segs : List Seg) (wsA wsB : List Char)
    (op : Char) (hs : ∀ s ∈ segs, segOk s) (hA : allSpace wsA) (hB : allSpace wsB)
    (hop1 : isCppSpace op = false) (hop2 : op.isDigit = false) :
    parse ⟨intToChars n0 ++ (renderSegs segs ++ (wsA ++ op :: wsB))⟩ =
      buildTree (.number n0) (segTokens segs ++ [(op, 0)]) := by
  have htail : headNotDigit (wsA ++ op :: wsB) := headNotDigit_ws_op hA hop2 wsB
  have hdata : (⟨intToChars n0 ++ (renderSegs segs ++ (wsA ++ op :: wsB))⟩ : String).data =
      intToChars n0 ++ (renderSegs segs ++ (wsA ++ op :: wsB)) := rfl
  have hri : readInt (intToChars n0 ++ (renderSegs segs ++ (wsA ++ op :: wsB))) =
      ⟨n0, renderSegs segs ++ (wsA ++ op :: wsB), true⟩ :=
    readInt_render n0 (headNotDigit_renderSegs hs htail)
  unfold parse
  rw [hdata, hri]
  have hscan : scanTokens (renderSegs segs ++ (wsA ++ op :: wsB)) =
      segTokens segs ++ [(op, 0)] := by
    unfold scanTokens
    rw [scanAux_renderSegs htail segs _ hs (by omega)]
    rw [scanAux_trailing_op hA hB hop1 (by omega)]
  simp only [hscan, if_pos]

/-- C5 (amended) witness: "5 + " parses, with no error, to the tree
Add(5, 0). -/
theorem parse_trailing_op_no_error_witness :
    isCppSpace '+' = false ∧ Char.isDigit '+' = false ∧
    parse ⟨intToChars 5 ++ (renderSegs [] ++ ([' '] ++ '+' :: [' ']))⟩ =
      buildTree (.number 5) (segTokens [] ++ [('+', 0)]) :=
  ⟨by decide, by decide,
    parse_trailing_op_no_error 5 [] [' '] [' '] '+' (by decide) (by decide) (by decide)
      (by decide) (by decide)⟩

/-- C6: evaluation is pure and deterministic: calling `interpret` repeatedly
on the same tree yields the same integer every time — the list of `k`
successive results is `k` copies of one value.  Freedom from mutation is
intrinsic to the embedding: `interpret` is a function of the tree alone
(the C++ methods are `const` and touch no other state), so no call can
change the tree. -/
theorem interpret_pure_deterministic :
    ∀ (e : Expression) (k : Nat), evalRepeated e k = List.replicate k e.interpret := by
  intro e k
  induction k with
  | zero => rfl
  | succ k ih => simp [evalRepeated, List.replicate_succ, ih]

/-- C7: a single-number input with no operators parses to a lone `number`
leaf that evaluates to that number. -/
theorem parse_single_number : parse "7" = .number 7 ∧ (parse "7").interpret = 7 := by
  decide

/-- C9: `parse` returns a tree and signals no error for every input — it is
a total function into `Expression` — and the C++11 stream semantics make a
failed integer extraction store 0: `readInt` yields value 0 whenever it
fails, the empty string parses to a tree evaluating to 0, and the trailing
operator of "5 + " is treated as if followed by 0, evaluating to 5. -/
theorem parse_no_error_stream_semantics :
    (∀ cs : List Char, (readInt cs).ok = false → (readInt cs).value = 0) ∧
    parse "" = .number 0 ∧ (parse "").interpret = 0 ∧
    parse "5 + " = .add (.number 5) (.number 0) ∧ (parse "5 + ").interpret = 5 :=
  ⟨readInt_fail_value, by decide, by decide, by decide, by decide⟩

/-- C9 witness: on the empty character stream the extraction fails and the
stored value is 0. -/
theorem parse_no_error_stream_semantics_witness :
    (readInt ([] : List Char)).ok = false ∧ (readInt ([] : List Char)).value = 0 :=
  ⟨by decide, parse_no_error_stream_semantics.1 [] (by decide)⟩

/-- C10: an operator token other than '+' or '-' leaves the accumulator
unchanged for that position — `buildStep` returns `result` untouched,
silently dropping the operator and its following number — so "5 * 3"
parses to the lone leaf 5. -/
theorem unknown_operator_dropped :
    (∀ (result : Expression) (p : Char × Int), p.1 ≠ '+' → p.1 ≠ '-' →
      buildStep result p = result) ∧
    parse "5 * 3" = .number 5 ∧ (parse "5 * 3").interpret = 5 :=
  ⟨fun result p h1 h2 => by simp [buildStep, h1, h2], by decide, by decide⟩

/-- C10 witness: the step of the tree-building loop at the pair ('*', 3)
leaves the accumulator unchanged. -/
theorem unknown_operator_dropped_witness :
    ('*' : Char) ≠ '+' ∧ ('*' : Char) ≠ '-' ∧
    buildStep (.number 5) ('*', 3) = .number 5 :=
  ⟨by decide, by decide,
    unknown_operator_dropped.1 (.number 5) ('*', 3) (by decide) (by decide)⟩
